import Mathlib

/-!
Verification of the byte-string utility library in
`source/blender/blenlib/intern/string.c`.

C strings are modelled as `List Nat`: the list holds the content bytes of a
NUL-terminated string, the end of the list standing for the terminator.  A
destination buffer written by a copy primitive is modelled as the list of
bytes the function writes (content followed by the terminating `0`), so the
length of that list is the total number of bytes written.
-/

/-- Byte value of the ASCII digit test `isdigit` (C locale). -/
def isdigitB (c : Nat) : Bool := decide (48 ≤ c ∧ c ≤ 57)

/-- ASCII `tolower` (C locale): fold `A`..`Z` to `a`..`z`, leave the rest. -/
def tolowerB (c : Nat) : Nat := if 65 ≤ c ∧ c ≤ 90 then c + 32 else c

/-- ASCII `ispunct` (C locale). -/
def ispunctB (c : Nat) : Bool :=
  decide ((33 ≤ c ∧ c ≤ 47) ∨ (58 ≤ c ∧ c ≤ 64) ∨ (91 ≤ c ∧ c ≤ 96) ∨ (123 ≤ c ∧ c ≤ 126))

/-- `BLI_strnlen(s, maxlen)` from string.c: length of `s`, stopping at
`maxlen` or at the first NUL byte. -/
def BLI_strnlen : List Nat → Nat → Nat
  | _, 0 => 0
  | [], _ => 0
  | c :: s, m + 1 => if c = 0 then 0 else BLI_strnlen s m + 1

/-- `BLI_strncpy(dst, src, maxncpy)`: the bytes written into `dst`
(`memcpy` of `BLI_strnlen(src, maxncpy - 1)` bytes, then the terminator). -/
def BLI_strncpy (src : List Nat) (maxncpy : Nat) : List Nat :=
  src.take (BLI_strnlen src (maxncpy - 1)) ++ [0]

/-- `BLI_strncpy_rlen(dst, src, maxncpy)`: same writes as `BLI_strncpy`
(the code is a verbatim duplicate), returning `srclen`, the number of bytes
copied excluding the terminator. -/
def BLI_strncpy_rlen (src : List Nat) (maxncpy : Nat) : Nat :=
  BLI_strnlen src (maxncpy - 1)

/-- The escape table of `BLI_str_escape`: for a byte that must be escaped,
the byte written after the backslash (`\` and `"` kept as-is, the six
control characters replaced by their letter). -/
def esc_char (c : Nat) : Option Nat :=
  if c = 92 ∨ c = 34 then some c
  else if c = 9 then some 116
  else if c = 10 then some 110
  else if c = 13 then some 114
  else if c = 7 then some 97
  else if c = 8 then some 98
  else if c = 12 then some 102
  else none

/-- The loop of `BLI_str_escape`: given the remaining source, the current
`len` and `dst_maxncpy`, return the content bytes still to be written and
the final value of `len`.  The loop runs while `len < dst_maxncpy` and the
source is not exhausted; an escapable byte needs two bytes and breaks out
early when `len + 1 >= dst_maxncpy`. -/
def escapeLoop : List Nat → Nat → Nat → List Nat × Nat
  | [], len, _ => ([], len)
  | c :: rest, len, maxncpy =>
    if len < maxncpy then
      match esc_char c with
      | some c2 =>
        if maxncpy ≤ len + 1 then ([], len)
        else
          let r := escapeLoop rest (len + 2) maxncpy
          (92 :: c2 :: r.1, r.2)
      | none =>
        let r := escapeLoop rest (len + 1) maxncpy
        (c :: r.1, r.2)
    else ([], len)

/-- Content bytes produced by `BLI_str_escape(dst, src, dst_maxncpy)`
(everything written before the final terminator). -/
def escContent (src : List Nat) (dst_maxncpy : Nat) : List Nat :=
  (escapeLoop src 0 dst_maxncpy).1

/-- All bytes `BLI_str_escape(dst, src, dst_maxncpy)` writes into `dst`:
the content followed by the terminating NUL the function stores last. -/
def escWritten (src : List Nat) (dst_maxncpy : Nat) : List Nat :=
  escContent src dst_maxncpy ++ [0]

/-- Return value of `BLI_str_escape`: the final `len`. -/
def BLI_str_escape (src : List Nat) (dst_maxncpy : Nat) : Nat :=
  (escapeLoop src 0 dst_maxncpy).2

/-- The decode table of `BLI_str_unescape`: the byte produced for a
recognized character following a backslash. -/
def unescape_decode (c : Nat) : Option Nat :=
  if c = 34 then some 34
  else if c = 92 then some 92
  else if c = 116 then some 9
  else if c = 110 then some 10
  else if c = 114 then some 13
  else if c = 97 then some 7
  else if c = 98 then some 8
  else if c = 102 then some 12
  else none

/-- The loop of `BLI_str_unescape(dst, src, src_maxncpy)`: scan `src` while
`i < src_maxncpy` and the source byte is not NUL; a backslash followed by a
recognized byte is decoded to one byte and consumes two source positions,
anything else is copied literally.  Returns the decoded content bytes. -/
def unescapeLoop : List Nat → Nat → Nat → List Nat
  | [], _, _ => []
  | [c], i, limit =>
    if i < limit then [c] else []
  | c :: rest@(c2 :: rest2), i, limit =>
    if i < limit then
      if c = 92 then
        match unescape_decode c2 with
        | some d => d :: unescapeLoop rest2 (i + 2) limit
        | none => 92 :: unescapeLoop rest (i + 1) limit
      else c :: unescapeLoop rest (i + 1) limit
    else []

/-- Content bytes written by `BLI_str_unescape(dst, src, src_maxncpy)`
(its return value is the length of this list). -/
def BLI_str_unescape (src : List Nat) (src_maxncpy : Nat) : List Nat :=
  unescapeLoop src 0 src_maxncpy

/-- `BLI_str_escape_find_quote(str)`: index of the first un-escaped double
quote, a backslash toggling the escaped flag for the next byte only. -/
def BLI_str_escape_find_quote : List Nat → Bool → Option Nat
  | [], _ => none
  | c :: rest, esc =>
    if c = 34 ∧ esc = false then some 0
    else (BLI_str_escape_find_quote rest (esc = false ∧ c = 92)).map (· + 1)

/-- `pat` is a byte-for-byte leading part of `s` (used to model `strstr`). -/
def hasPref : List Nat → List Nat → Bool
  | [], _ => true
  | _ :: _, [] => false
  | a :: pr, b :: sr => if a = b then hasPref pr sr else false

/-- C `strstr(s, pat)` as the index of the first occurrence of `pat`. -/
def strstrIdx (s pat : List Nat) : Option Nat :=
  if hasPref pat s then some 0
  else
    match s with
    | [] => none
    | _ :: r => (strstrIdx r pat).map (· + 1)

/-- `BLI_str_quoted_substrN(str, prefix)`: find the first occurrence of the
prefix, step `strlen(prefix) + 1` bytes past it (over the opening quote),
find the matching un-escaped closing quote, and unescape the enclosed text
with the scan limit `escaped_len`; `none` when prefix or quote is absent. -/
def BLI_str_quoted_substrN (str pre : List Nat) : Option (List Nat) :=
  match strstrIdx str pre with
  | none => none
  | some idx =>
    let rest := str.drop (idx + pre.length + 1)
    match BLI_str_escape_find_quote rest false with
    | none => none
    | some q => some (BLI_str_unescape rest q)

/-- The suffix-comparison loop of `BLI_strn_endswith`: compare `iter`
(which the caller positions `elength` bytes before the end) against `end`
until `iter` hits its terminator; a terminator on the `end` side while
`iter` still has bytes is a mismatch. -/
def endsLoop : List Nat → List Nat → Bool
  | [], _ => true
  | _ :: _, [] => false
  | c :: iterRest, d :: endRest => if c = d then endsLoop iterRest endRest else false

/-- `BLI_strn_endswith(str, end, slength)`: true only when
`strlen(end) < slength` and the last `strlen(end)` bytes match. -/
def BLI_strn_endswith (str endS : List Nat) (slength : Nat) : Bool :=
  if endS.length < slength then endsLoop (str.drop (slength - endS.length)) endS
  else false

/-- `BLI_str_endswith(str, end)` = `BLI_strn_endswith(str, end, strlen(str))`. -/
def BLI_str_endswith (str endS : List Nat) : Bool :=
  BLI_strn_endswith str endS str.length

theorem strnlen_le (s : List Nat) (m : Nat) : BLI_strnlen s m ≤ m := by
  induction s generalizing m with
  | nil => cases m <;> simp [BLI_strnlen]
  | cons c r ih =>
    cases m with
    | zero => simp [BLI_strnlen]
    | succ m =>
      simp only [BLI_strnlen]
      split
      · omega
      · have := ih m; omega

theorem strnlen_le_length (s : List Nat) (m : Nat) : BLI_strnlen s m ≤ s.length := by
  induction s generalizing m with
  | nil => cases m <;> simp [BLI_strnlen]
  | cons c r ih =>
    cases m with
    | zero => simp [BLI_strnlen]
    | succ m =>
      simp only [BLI_strnlen]
      split
      · simp
      · have := ih m; simp; omega

theorem strnlen_of_no_zero (s : List Nat) (m : Nat) (h : 0 ∉ s) :
    BLI_strnlen s m = min s.length m := by
  induction s generalizing m with
  | nil => cases m <;> simp [BLI_strnlen]
  | cons c r ih =>
    cases m with
    | zero => simp [BLI_strnlen]
    | succ m =>
      simp only [BLI_strnlen]
      have hc : ¬(c = 0) := by intro h0; exact h (by simp [h0])
      rw [if_neg hc, ih m (by intro hm; exact h (List.mem_cons_of_mem _ hm))]
      simp [List.length_cons]
      omega

theorem strnlen_take (s : List Nat) (m : Nat) :
    BLI_strnlen (s.take m) m = BLI_strnlen s m := by
  induction s generalizing m with
  | nil => cases m <;> simp [BLI_strnlen]
  | cons c r ih =>
    cases m with
    | zero => simp [BLI_strnlen]
    | succ m => simp only [List.take_succ_cons, BLI_strnlen, ih m]

/-- Claim C1: for every capacity `c ≥ 1` and every source `s` (a C string,
so without NUL bytes), `BLI_strncpy` / `BLI_strncpy_rlen` write at most `c`
bytes in total including the terminator, the destination is always
NUL-terminated within that capacity, if `strlen(s) < c` the destination
equals `s` exactly, and the `_rlen` variant returns the number of bytes
copied excluding the terminator. -/
theorem C1_strncpy_truncates_safely (s : List Nat) (c : Nat)
    (hc : 1 ≤ c) (hs : 0 ∉ s) :
    (BLI_strncpy s c).length ≤ c ∧
    (BLI_strncpy s c).getLast? = some 0 ∧
    (s.length < c → BLI_strncpy s c = s ++ [0]) ∧
    BLI_strncpy_rlen s c + 1 = (BLI_strncpy s c).length := by
  refine ⟨?_, ?_, ?_, ?_⟩
  · have h1 := strnlen_le s (c - 1)
    have h2 := strnlen_le_length s (c - 1)
    simp [BLI_strncpy, List.length_take]
    omega
  · simp [BLI_strncpy]
  · intro hlen
    have : BLI_strnlen s (c - 1) = s.length := by
      rw [strnlen_of_no_zero s (c - 1) hs]; omega
    simp [BLI_strncpy, this]
  · have h2 := strnlen_le_length s (c - 1)
    simp [BLI_strncpy, BLI_strncpy_rlen, List.length_take]
    omega

theorem C1_strncpy_truncates_safely_witness :
    1 ≤ 2 ∧ (0 : Nat) ∉ [97] ∧
    ((BLI_strncpy [97] 2).length ≤ 2 ∧
     (BLI_strncpy [97] 2).getLast? = some 0 ∧
     (([97] : List Nat).length < 2 → BLI_strncpy [97] 2 = [97] ++ [0]) ∧
     BLI_strncpy_rlen [97] 2 + 1 = (BLI_strncpy [97] 2).length) :=
  ⟨by decide, by decide, C1_strncpy_truncates_safely [97] 2 (by decide) (by decide)⟩

/-- Claim C2 (code bug): at the failing input `src = "ab"`, `dst_maxncpy = 2`,
`BLI_str_escape` writes three bytes `'a' 'b' NUL` — the terminator lands at
index `dst_maxncpy`, so the function writes `dst_maxncpy + 1` bytes in
total, contradicting the claimed (and documented) capacity contract, while
the return value `2` does equal the content bytes written. -/
theorem C2_escape_overflow_at_failing_input :
    escWritten [97, 98] 2 = [97, 98, 0] ∧
    (escWritten [97, 98] 2).length = 3 ∧
    BLI_str_escape [97, 98] 2 = 2 := by
  decide

/-- Claim C10: for every capacity `c ≥ 1` and any two sources agreeing on
their first `c - 1` bytes, `BLI_strncpy` (and `BLI_strncpy_rlen`, which
performs the identical writes) produce byte-identical destination contents
and equal return values: the output only depends on the first `c - 1`
source bytes, measured with `BLI_strnlen(src, c - 1)`. -/
theorem C10_strncpy_reads_only_capacity (c : Nat) (s1 s2 : List Nat)
    (_hc : 1 ≤ c) (hagree : s1.take (c - 1) = s2.take (c - 1)) :
    BLI_strncpy s1 c = BLI_strncpy s2 c ∧
    BLI_strncpy_rlen s1 c = BLI_strncpy_rlen s2 c := by
  have hlen : BLI_strnlen s1 (c - 1) = BLI_strnlen s2 (c - 1) := by
    rw [← strnlen_take s1 (c - 1), ← strnlen_take s2 (c - 1), hagree]
  have htake : s1.take (BLI_strnlen s1 (c - 1)) = s2.take (BLI_strnlen s2 (c - 1)) := by
    have h1 : BLI_strnlen s1 (c - 1) ≤ c - 1 := strnlen_le s1 (c - 1)
    have e1 : s1.take (BLI_strnlen s1 (c - 1)) = (s1.take (c - 1)).take (BLI_strnlen s1 (c - 1)) := by
      rw [List.take_take, min_eq_left h1]
    have e2 : s2.take (BLI_strnlen s2 (c - 1)) = (s2.take (c - 1)).take (BLI_strnlen s2 (c - 1)) := by
      rw [List.take_take, min_eq_left (hlen ▸ h1)]
    rw [e1, e2, hagree, hlen]
  exact ⟨by simp [BLI_strncpy, htake], by simp [BLI_strncpy_rlen, hlen]⟩

theorem C10_strncpy_reads_only_capacity_witness :
    1 ≤ 2 ∧ ([97, 98] : List Nat).take 1 = ([97, 99] : List Nat).take 1 ∧
    (BLI_strncpy [97, 98] 2 = BLI_strncpy [97, 99] 2 ∧
     BLI_strncpy_rlen [97, 98] 2 = BLI_strncpy_rlen [97, 99] 2) :=
  ⟨by decide, by decide, C10_strncpy_reads_only_capacity 2 [97, 98] [97, 99] (by decide) (by decide)⟩

/-- Claim C9: `BLI_str_endswith` (via `BLI_strn_endswith` at
`slength = strlen(s)`) answers true only when the candidate suffix is
strictly shorter than the string; in particular no string ends with itself
and `BLI_str_endswith("", "")` is false. -/
theorem C9_endswith_requires_shorter :
    (∀ s e : List Nat, BLI_str_endswith s e = true → e.length < s.length) ∧
    (∀ s : List Nat, BLI_str_endswith s s = false) ∧
    BLI_str_endswith ([] : List Nat) ([] : List Nat) = false := by
  refine ⟨?_, ?_, by decide⟩
  · intro s e h
    simp only [BLI_str_endswith, BLI_strn_endswith] at h
    by_cases hlt : e.length < s.length
    · exact hlt
    · rw [if_neg hlt] at h; cases h
  · intro s
    simp [BLI_str_endswith, BLI_strn_endswith]

theorem C9_endswith_requires_shorter_witness :
    BLI_str_endswith [97, 98] [98] = true ∧ ([98] : List Nat).length < ([97, 98] : List Nat).length :=
  ⟨by decide, C9_endswith_requires_shorter.1 [97, 98] [98] (by decide)⟩

/-- The escape expansion `BLI_str_escape` performs when capacity never runs
out: each byte becomes either itself or a backslash pair. -/
def escAll : List Nat → List Nat
  | [] => []
  | c :: r =>
    match esc_char c with
    | some c2 => 92 :: c2 :: escAll r
    | none => c :: escAll r

theorem esc_char_decode {c c2 : Nat} (h : esc_char c = some c2) :
    unescape_decode c2 = some c := by
  unfold esc_char at h
  split_ifs at h with h1 h2 h3 h4 h5 h6 h7
  · rcases h1 with h1 | h1 <;> (subst h1; injection h with h'; subst h'; rfl)
  · subst h2; injection h with h'; subst h'; rfl
  · subst h3; injection h with h'; subst h'; rfl
  · subst h4; injection h with h'; subst h'; rfl
  · subst h5; injection h with h'; subst h'; rfl
  · subst h6; injection h with h'; subst h'; rfl
  · subst h7; injection h with h'; subst h'; rfl

theorem esc_char_none_ne {c : Nat} (h : esc_char c = none) : c ≠ 92 ∧ c ≠ 34 := by
  constructor <;> intro hc <;> subst hc <;> simp [esc_char] at h

theorem escAll_nil_iff (s : List Nat) : escAll s = [] ↔ s = [] := by
  cases s with
  | nil => simp [escAll]
  | cons c r =>
    simp only [escAll]
    cases esc_char c <;> simp

theorem escapeLoop_no_trunc (s : List Nat) :
    ∀ len maxncpy, len + 2 * s.length < maxncpy →
    escapeLoop s len maxncpy = (escAll s, len + (escAll s).length) := by
  induction s with
  | nil => intro len maxncpy _; simp [escapeLoop, escAll]
  | cons c r ih =>
    intro len maxncpy h
    have hlen : len < maxncpy := by simp [List.length_cons] at h; omega
    cases hm : esc_char c with
    | some c2 =>
      have hfit : ¬(maxncpy ≤ len + 1) := by simp [List.length_cons] at h; omega
      rw [show escapeLoop (c :: r) len maxncpy
          = (92 :: c2 :: (escapeLoop r (len + 2) maxncpy).1, (escapeLoop r (len + 2) maxncpy).2) by
        simp only [escapeLoop, if_pos hlen, hm, if_neg hfit]]
      rw [ih (len + 2) maxncpy (by simp [List.length_cons] at h ⊢; omega)]
      simp [escAll, hm]
      omega
    | none =>
      rw [show escapeLoop (c :: r) len maxncpy
          = ((c :: (escapeLoop r (len + 1) maxncpy).1), (escapeLoop r (len + 1) maxncpy).2) by
        simp only [escapeLoop, if_pos hlen, hm]]
      rw [ih (len + 1) maxncpy (by simp [List.length_cons] at h ⊢; omega)]
      simp [escAll, hm]
      omega

theorem unescape_step_plain {c : Nat} (u : List Nat) (i limit : Nat) (hc : c ≠ 92) :
    unescapeLoop (c :: u) i limit =
      if i < limit then c :: unescapeLoop u (i + 1) limit else [] := by
  cases u with
  | nil =>
    simp only [unescapeLoop]
  | cons c2 r =>
    simp only [unescapeLoop, if_neg hc]

theorem unescape_step_pair {c2 d : Nat} (u : List Nat) (i limit : Nat)
    (hd : unescape_decode c2 = some d) :
    unescapeLoop (92 :: c2 :: u) i limit =
      if i < limit then d :: unescapeLoop u (i + 2) limit else [] := by
  simp [unescapeLoop, hd]

theorem unescapeLoop_stops (t : List Nat) (i : Nat) : unescapeLoop t i i = [] := by
  cases t with
  | nil => simp [unescapeLoop]
  | cons c r =>
    cases r with
    | nil => simp [unescapeLoop]
    | cons c2 r2 => simp [unescapeLoop]

theorem unescape_escAll_exact (s : List Nat) :
    ∀ t i, unescapeLoop (escAll s ++ t) i (i + (escAll s).length) = s := by
  induction s with
  | nil => intro t i; simp [escAll, unescapeLoop_stops]
  | cons c r ih =>
    intro t i
    cases hm : esc_char c with
    | some c2 =>
      have hd : unescape_decode c2 = some c := esc_char_decode hm
      simp only [escAll, hm, List.cons_append, List.length_cons]
      rw [unescape_step_pair (escAll r ++ t) i (i + ((escAll r).length + 1 + 1)) hd,
        if_pos (by omega)]
      have harith : i + ((escAll r).length + 1 + 1) = i + 2 + (escAll r).length := by omega
      rw [harith]
      exact congrArg (c :: ·) (ih t (i + 2))
    | none =>
      have hc : c ≠ 92 := (esc_char_none_ne hm).1
      simp only [escAll, hm, List.cons_append, List.length_cons]
      rw [unescape_step_plain (escAll r ++ t) i (i + ((escAll r).length + 1)) hc,
        if_pos (by omega)]
      have harith : i + ((escAll r).length + 1) = i + 1 + (escAll r).length := by omega
      rw [harith]
      exact congrArg (c :: ·) (ih t (i + 1))

theorem findQuote_escAll (s : List Nat) :
    ∀ t, BLI_str_escape_find_quote (escAll s ++ 34 :: t) false = some (escAll s).length := by
  induction s with
  | nil =>
    intro t
    simp [escAll, BLI_str_escape_find_quote]
  | cons c r ih =>
    intro t
    cases hm : esc_char c with
    | some c2 =>
      simp only [escAll, hm, List.cons_append, List.length_cons]
      rw [BLI_str_escape_find_quote]
      rw [if_neg (by simp)]
      rw [show (decide (false = false ∧ (92 : Nat) = 92)) = true by decide]
      rw [BLI_str_escape_find_quote]
      rw [if_neg (by simp)]
      rw [show (decide (true = false ∧ c2 = 92)) = false by simp]
      rw [ih t]
      simp
      try omega
    | none =>
      have hne := esc_char_none_ne hm
      simp only [escAll, hm, List.cons_append, List.length_cons]
      rw [BLI_str_escape_find_quote]
      rw [if_neg (by simp [hne.2])]
      rw [show (decide (false = false ∧ c = 92)) = false by simp [hne.1]]
      rw [ih t]
      simp

/-- Claim C3: with sufficient escape capacity (any `m ≥ 2 * strlen(s) + 1`)
and the unescape scan limit set to the escaped length, unescaping the
result of `BLI_str_escape` recovers the input exactly:
`unescape(escape(s)) = s`. -/
theorem C3_escape_unescape_roundtrip (s : List Nat) (m : Nat)
    (hm : 2 * s.length + 1 ≤ m) :
    BLI_str_unescape (escContent s m) (escContent s m).length = s := by
  have he : escContent s m = escAll s := by
    unfold escContent
    rw [escapeLoop_no_trunc s 0 m (by omega)]
  rw [he]
  unfold BLI_str_unescape
  have := unescape_escAll_exact s [] 0
  simpa using this

theorem C3_escape_unescape_roundtrip_witness :
    2 * ([97, 34, 9] : List Nat).length + 1 ≤ 7 ∧
    BLI_str_unescape (escContent [97, 34, 9] 7) (escContent [97, 34, 9] 7).length
      = [97, 34, 9] :=
  ⟨by decide, C3_escape_unescape_roundtrip [97, 34, 9] 7 (by decide)⟩

theorem hasPref_append (p t : List Nat) : hasPref p (p ++ t) = true := by
  induction p with
  | nil => simp [hasPref]
  | cons a r ih => simp [hasPref, ih]

theorem drop_append_len (p l : List Nat) (k : Nat) :
    (p ++ l).drop (p.length + k) = l.drop k := by
  induction p with
  | nil => simp
  | cons a r ih => simp [List.length_cons, Nat.succ_add, ih]

/-- Claim C4: for every string `s` and non-empty prefix `p`,
`BLI_str_quoted_substrN` applied to `p ++ '"' ++ escape(s) ++ '"'` with
prefix `p` returns the string `s`: it finds the first occurrence of `p`,
steps over the opening quote, locates the matching un-escaped closing quote
with `BLI_str_escape_find_quote`, and unescapes the enclosed text. -/
theorem C4_quoted_substr_roundtrip (p s : List Nat) (_hp : p ≠ []) :
    BLI_str_quoted_substrN (p ++ 34 :: (escContent s (2 * s.length + 1) ++ [34])) p
      = some s := by
  have he : escContent s (2 * s.length + 1) = escAll s := by
    unfold escContent
    rw [escapeLoop_no_trunc s 0 (2 * s.length + 1) (by omega)]
  rw [he]
  have hss : strstrIdx (p ++ 34 :: (escAll s ++ [34])) p = some 0 := by
    unfold strstrIdx; rw [if_pos (hasPref_append p _)]
  have hdrop : (p ++ 34 :: (escAll s ++ [34])).drop (0 + p.length + 1) = escAll s ++ [34] := by
    rw [Nat.zero_add]
    exact drop_append_len p (34 :: (escAll s ++ [34])) 1
  have hfq : BLI_str_escape_find_quote (escAll s ++ [34]) false = some (escAll s).length :=
    findQuote_escAll s []
  simp only [BLI_str_quoted_substrN, hss, hdrop, hfq, BLI_str_unescape]
  exact congrArg some (by simpa using unescape_escAll_exact s [34] 0)

theorem C4_quoted_substr_roundtrip_witness :
    ([97] : List Nat) ≠ [] ∧
    BLI_str_quoted_substrN ([97] ++ 34 :: (escContent [98] (2 * ([98] : List Nat).length + 1) ++ [34])) [97]
      = some [98] :=
  ⟨by decide, C4_quoted_substr_roundtrip [97] [98] (by decide)⟩

/-- C `strncmp(s1, s2, n)` (sign-canonical): compare at most `n` bytes,
stopping at a difference or at a NUL on both sides. -/
def strncmpInt : List Nat → List Nat → Nat → Int
  | _, _, 0 => 0
  | s1, s2, n + 1 =>
    let c1 := s1.headD 0
    let c2 := s2.headD 0
    if c1 < c2 then -1
    else if c2 < c1 then 1
    else if c1 = 0 then 0
    else strncmpInt s1.tail s2.tail n

/-- C `strcmp(s1, s2)` (sign-canonical), the end of the list standing for
the NUL terminator, which compares below every content byte. -/
def strcmpInt : List Nat → List Nat → Int
  | [], [] => 0
  | [], _ :: _ => -1
  | _ :: _, [] => 1
  | a :: s1, b :: s2 =>
    if a < b then -1 else if b < a then 1 else strcmpInt s1 s2

/-- `left_number_strcmp(s1, s2, &tiebreaker)` from string.c: count and skip
leading zeros on each side, compare the two digit runs first by length and
then with `strncmp`; when everything is equal, set the tiebreaker (only if
it is still 0) to `1` when `s1` has more leading zeros and to `-1` when it
has fewer.  Returns the comparison result and the updated tiebreaker. -/
def left_number_strcmp (s1 s2 : List Nat) (tiebreaker : Int) : Int × Int :=
  let numzero1 := (s1.takeWhile (fun c => c == 48)).length
  let numzero2 := (s2.takeWhile (fun c => c == 48)).length
  let p1 := s1.drop numzero1
  let p2 := s2.drop numzero2
  let n1 := (p1.takeWhile isdigitB).length
  let n2 := (p2.takeWhile isdigitB).length
  if n2 < n1 then (1, tiebreaker)
  else if n1 < n2 then (-1, tiebreaker)
  else
    let cmpv := strncmpInt p1 p2 n1
    if cmpv ≠ 0 then (cmpv, tiebreaker)
    else if tiebreaker = 0 then
      (0, if numzero2 < numzero1 then 1 else if numzero1 < numzero2 then -1 else 0)
    else (0, tiebreaker)

theorem dropWhile_length_le (p : Nat → Bool) (l : List Nat) :
    (l.dropWhile p).length ≤ l.length := by
  induction l with
  | nil => simp
  | cons a r ih =>
    by_cases h : p a
    · simp only [List.dropWhile_cons, h, if_true, List.length_cons]; omega
    · simp [List.dropWhile_cons, h]

/-- After `left_number_strcmp` returns 0, `BLI_strcasecmp_natural` advances
`d` once and then past the rest of the digit run. -/
def dropNum (t : List Nat) : List Nat := (t.drop 1).dropWhile isdigitB

/-- The `while (1)` loop of `BLI_strcasecmp_natural` on the two remaining
suffixes: when both current bytes are digits, run `left_number_strcmp` and
return its result if non-zero, else skip both digit runs and continue; at
the end of either string, break (reported as `none` with the current
tiebreaker); otherwise compare the lowered bytes, with `.` ordered before
every other byte. -/
def natLoop : List Nat → List Nat → Int → Option Int × Int
  | t1, t2, tb =>
    if h : isdigitB (t1.headD 0) && isdigitB (t2.headD 0) then
      let r := left_number_strcmp t1 t2 tb
      if r.1 ≠ 0 then (some r.1, r.2)
      else natLoop (dropNum t1) (dropNum t2) r.2
    else
      match t1, t2 with
      | [], _ => (none, tb)
      | _ :: _, [] => (none, tb)
      | c1 :: r1, c2 :: r2 =>
        let l1 := tolowerB c1
        let l2 := tolowerB c2
        if l1 = l2 then natLoop r1 r2 tb
        else if l1 = 46 then (some (-1), tb)
        else if l2 = 46 then (some 1, tb)
        else if l1 < l2 then (some (-1), tb)
        else (some 1, tb)
termination_by t1 _ _ => t1.length
decreasing_by
  · cases t1 with
    | nil => simp [isdigitB] at h
    | cons a rr =>
      simp only [dropNum, List.drop_succ_cons, List.drop_zero, List.length_cons]
      have := dropWhile_length_le isdigitB rr
      omega
  · simp [List.length_cons]

/-- `BLI_strcasecmp_natural(s1, s2)`: run the loop; on early return use its
result, otherwise return the tiebreaker if set, else fall back to a plain
`strcmp` of the original strings. -/
def BLI_strcasecmp_natural (s1 s2 : List Nat) : Int :=
  match natLoop s1 s2 0 with
  | (some r, _) => r
  | (none, tb) => if tb ≠ 0 then tb else strcmpInt s1 s2

/-- Claim C5 counterexample: `BLI_strcasecmp_natural("007", "07")` is `1`,
not negative — the code sets the tiebreaker to `+1` for the string with
MORE leading zeros (`numzero1 > numzero2` gives `*tiebreaker = 1`), so
`"007"` compares greater than `"07"`, the opposite of the claim. -/
theorem C5_natural_zero_tiebreak_counterexample :
    ¬ (BLI_strcasecmp_natural [48, 48, 55] [48, 55] < 0) := by
  simp [BLI_strcasecmp_natural, natLoop, left_number_strcmp, dropNum, isdigitB, tolowerB,
    strncmpInt, strcmpInt]

/-- Claim C5 (amended): `BLI_strcasecmp_natural("007", "07") > 0`: when two
embedded numbers compare numerically equal, the tiebreaker — set once, the
first time it is seen — makes the string whose number has more leading
zeros compare GREATER; the tie-break decides the overall ordering only when
no later segment differentiates the strings (`"007a" < "07b"` despite the
tiebreaker favouring `"07b"`), and once set it is never overwritten
(`"07x007" < "007x07"` by the first number pair's tiebreaker even though
the second pair would set the opposite one). -/
theorem C5_natural_zero_tiebreak_amended :
    BLI_strcasecmp_natural [48, 48, 55] [48, 55] = 1 ∧
    BLI_strcasecmp_natural [48, 48, 55, 97] [48, 55, 98] < 0 ∧
    BLI_strcasecmp_natural [48, 55, 120, 48, 48, 55] [48, 48, 55, 120, 48, 55] < 0 := by
  refine ⟨?_, ?_, ?_⟩ <;>
    simp [BLI_strcasecmp_natural, natLoop, left_number_strcmp, dropNum, isdigitB, tolowerB,
      strncmpInt, strcmpInt]

/-- Claim C6: `BLI_strcasecmp_natural("img2", "img10") < 0` (embedded
maximal digit runs compare as numbers, by digit count after skipping
leading zeros, then lexicographically) and
`BLI_strcasecmp_natural("a.b", "a 1.b") < 0` (outside digit runs bytes
compare case-insensitively except that `.` sorts before any other
non-`.` byte). -/
theorem C6_natural_number_and_dot_order :
    BLI_strcasecmp_natural [105, 109, 103, 50] [105, 109, 103, 49, 48] < 0 ∧
    BLI_strcasecmp_natural [97, 46, 98] [97, 32, 49, 46, 98] < 0 := by
  constructor <;>
    simp [BLI_strcasecmp_natural, natLoop, left_number_strcmp, dropNum, isdigitB, tolowerB,
      strncmpInt, strcmpInt]

theorem hasPref_le_length {pat s : List Nat} (h : hasPref pat s = true) :
    pat.length ≤ s.length := by
  induction pat generalizing s with
  | nil => simp
  | cons a pr ih =>
    cases s with
    | nil => simp [hasPref] at h
    | cons b sr =>
      simp only [hasPref] at h
      split at h
      · simpa using ih h
      · cases h

theorem hasPref_nil_false {pat : List Nat} (h0 : pat ≠ []) : hasPref pat [] = false := by
  cases pat with
  | nil => exact absurd rfl h0
  | cons a pr => rfl

theorem strstrIdx_nil (pat : List Nat) :
    strstrIdx [] pat = if hasPref pat [] = true then some 0 else none := rfl

theorem strstrIdx_cons (b : Nat) (r pat : List Nat) :
    strstrIdx (b :: r) pat =
      if hasPref pat (b :: r) = true then some 0
      else (strstrIdx r pat).map (· + 1) := rfl

theorem strstrIdx_some_le {pat : List Nat} :
    ∀ {s : List Nat} {i : Nat}, strstrIdx s pat = some i → i + pat.length ≤ s.length := by
  intro s
  induction s with
  | nil =>
    intro i h
    rw [strstrIdx_nil] at h
    by_cases hp : hasPref pat [] = true
    · rw [if_pos hp] at h
      injection h with h'
      subst h'
      have h2 := hasPref_le_length hp
      omega
    · rw [if_neg hp] at h
      cases h
  | cons b r ih =>
    intro i h
    rw [strstrIdx_cons] at h
    by_cases hp : hasPref pat (b :: r) = true
    · rw [if_pos hp] at h
      injection h with h'
      subst h'
      have h2 := hasPref_le_length hp
      omega
    · rw [if_neg hp] at h
      cases hm : strstrIdx r pat with
      | none => rw [hm] at h; cases h
      | some j =>
        rw [hm] at h
        have h' : j + 1 = i := by simpa using h
        subst h'
        have := ih hm
        simp only [List.length_cons]
        omega

theorem strstrIdx_none_no_occ {pat : List Nat} :
    ∀ {s : List Nat}, strstrIdx s pat = none → ∀ j, hasPref pat (s.drop j) = false := by
  intro s
  induction s with
  | nil =>
    intro h j
    rw [strstrIdx_nil] at h
    by_cases hp : hasPref pat [] = true
    · rw [if_pos hp] at h; cases h
    · simp only [List.drop_nil]
      simpa using hp
  | cons b r ih =>
    intro h j
    rw [strstrIdx_cons] at h
    by_cases hp : hasPref pat (b :: r) = true
    · rw [if_pos hp] at h; cases h
    · rw [if_neg hp] at h
      cases hm : strstrIdx r pat with
      | some k => rw [hm] at h; cases h
      | none =>
        cases j with
        | zero =>
          simp only [List.drop_zero]
          simpa using hp
        | succ j => simpa using ih hm j

theorem strstrIdx_some_min {pat : List Nat} :
    ∀ {s : List Nat} {i : Nat}, strstrIdx s pat = some i →
      hasPref pat (s.drop i) = true ∧ ∀ j < i, hasPref pat (s.drop j) = false := by
  intro s
  induction s with
  | nil =>
    intro i h
    rw [strstrIdx_nil] at h
    by_cases hp : hasPref pat [] = true
    · rw [if_pos hp] at h
      injection h with h'
      subst h'
      exact ⟨by simpa using hp, by omega⟩
    · rw [if_neg hp] at h
      cases h
  | cons b r ih =>
    intro i h
    rw [strstrIdx_cons] at h
    by_cases hp : hasPref pat (b :: r) = true
    · rw [if_pos hp] at h
      injection h with h'
      subst h'
      exact ⟨by simpa using hp, by omega⟩
    · rw [if_neg hp] at h
      cases hm : strstrIdx r pat with
      | none => rw [hm] at h; cases h
      | some k =>
        rw [hm] at h
        have h' : k + 1 = i := by simpa using h
        subst h'
        obtain ⟨hocc, hmin⟩ := ih hm
        refine ⟨by simpa using hocc, ?_⟩
        intro j hj
        cases j with
        | zero =>
          simp only [List.drop_zero]
          simpa using hp
        | succ j =>
          simp only [List.drop_succ_cons]
          exact hmin j (by omega)

/-- `BLI_str_replaceN(str, substr_old, substr_new)`: repeatedly `strstr`
for the old substring; each round appends the text before the match and the
replacement, then continues after the matched occurrence; the final tail is
appended verbatim.  The `old = []` guard models the function's
`BLI_assert(substr_old[0] != '\0')` precondition. -/
def BLI_str_replaceN (str old new : List Nat) : List Nat :=
  if _h0 : old = [] then str
  else
    match _hm : strstrIdx str old with
    | none => str
    | some i => str.take i ++ new ++ BLI_str_replaceN (str.drop (i + old.length)) old new
termination_by str.length
decreasing_by
  have hle := strstrIdx_some_le _hm
  have h1 : 1 ≤ old.length := by
    cases old with
    | nil => exact absurd rfl _h0
    | cons a pr => simp [List.length_cons]
  simp only [List.length_drop]
  omega

/-- Modelled from the spec: the naive reference replace-all implementation
the spec compares `BLI_str_replaceN` against — walk the string byte by
byte, replacing the leftmost occurrence of the old substring and continuing
after the replacement. -/
def naiveReplaceAll (str old new : List Nat) : List Nat :=
  if _h0 : old = [] then str
  else
    match str with
    | [] => []
    | c :: r =>
      if hasPref old (c :: r) then new ++ naiveReplaceAll ((c :: r).drop old.length) old new
      else c :: naiveReplaceAll r old new
termination_by str.length
decreasing_by
  · have h1 : 1 ≤ old.length := by
      cases old with
      | nil => exact absurd rfl _h0
      | cons a pr => simp [List.length_cons]
    simp only [List.length_drop, List.length_cons]
    omega
  · simp [List.length_cons]

theorem replaceN_eq_none {str old new : List Nat} (h0 : old ≠ [])
    (hm : strstrIdx str old = none) : BLI_str_replaceN str old new = str := by
  conv_lhs => rw [BLI_str_replaceN.eq_def]
  rw [dif_neg h0]
  split
  · rfl
  · rename_i j heq
    rw [hm] at heq
    cases heq

theorem replaceN_eq_some {str old new : List Nat} {i : Nat} (h0 : old ≠ [])
    (hm : strstrIdx str old = some i) :
    BLI_str_replaceN str old new =
      str.take i ++ new ++ BLI_str_replaceN (str.drop (i + old.length)) old new := by
  conv_lhs => rw [BLI_str_replaceN.eq_def]
  rw [dif_neg h0]
  split
  · rename_i heq
    rw [hm] at heq
    cases heq
  · rename_i j heq
    rw [hm] at heq
    injection heq with h'
    subst h'
    rfl

theorem naive_nil (old new : List Nat) : naiveReplaceAll [] old new = [] := by
  rw [naiveReplaceAll.eq_def]
  split <;> rfl

theorem naive_cons_pos {old : List Nat} (new : List Nat) {c : Nat} {r : List Nat}
    (h0 : old ≠ []) (hp : hasPref old (c :: r) = true) :
    naiveReplaceAll (c :: r) old new
      = new ++ naiveReplaceAll ((c :: r).drop old.length) old new := by
  rw [naiveReplaceAll.eq_def, dif_neg h0]
  simp only [hp, if_true]

theorem naive_cons_neg {old : List Nat} (new : List Nat) {c : Nat} {r : List Nat}
    (h0 : old ≠ []) (hp : hasPref old (c :: r) = false) :
    naiveReplaceAll (c :: r) old new = c :: naiveReplaceAll r old new := by
  rw [naiveReplaceAll.eq_def, dif_neg h0]
  simp only [hp]
  rfl

theorem naive_no_occ {old new : List Nat} (h0 : old ≠ []) :
    ∀ {str : List Nat}, (∀ j, hasPref old (str.drop j) = false) →
      naiveReplaceAll str old new = str := by
  intro str
  induction str with
  | nil => intro _; exact naive_nil old new
  | cons c r ih =>
    intro h
    rw [naive_cons_neg new h0 (by simpa using h 0)]
    rw [ih (fun j => by simpa using h (j + 1))]

theorem naive_step_at {old new : List Nat} (h0 : old ≠ []) :
    ∀ i (str : List Nat), hasPref old (str.drop i) = true →
      (∀ j < i, hasPref old (str.drop j) = false) →
      naiveReplaceAll str old new
        = str.take i ++ new ++ naiveReplaceAll (str.drop (i + old.length)) old new := by
  intro i
  induction i with
  | zero =>
    intro str hocc _
    simp only [List.drop_zero] at hocc
    cases str with
    | nil =>
      have := hasPref_le_length hocc
      cases old with
      | nil => exact absurd rfl h0
      | cons a pr => simp at this
    | cons c r =>
      rw [naive_cons_pos new h0 hocc]
      simp
  | succ i ih =>
    intro str hocc hmin
    cases str with
    | nil =>
      simp only [List.drop_nil] at hocc
      rw [hasPref_nil_false h0] at hocc
      cases hocc
    | cons c r =>
      rw [naive_cons_neg new h0 (by simpa using hmin 0 (by omega))]
      rw [ih r (by simpa using hocc) (fun j hj => by simpa using hmin (j + 1) (by omega))]
      have hdrop2 : (c :: r).drop (i + 1 + old.length) = r.drop (i + old.length) := by
        rw [show i + 1 + old.length = i + old.length + 1 by omega]
        rfl
      rw [hdrop2]
      simp [List.take_succ_cons]

theorem replaceN_eq_naive {old new : List Nat} (h0 : old ≠ []) :
    ∀ (str : List Nat), BLI_str_replaceN str old new = naiveReplaceAll str old new := by
  have main : ∀ k (str : List Nat), str.length ≤ k →
      BLI_str_replaceN str old new = naiveReplaceAll str old new := by
    intro k
    induction k with
    | zero =>
      intro str hs
      have hstr : str = [] := by
        cases str with
        | nil => rfl
        | cons c r => simp at hs
      subst hstr
      rw [replaceN_eq_none h0 (by unfold strstrIdx; rw [if_neg (by simp [hasPref_nil_false h0])]),
        naive_nil]
    | succ k ihk =>
      intro str hs
      cases hm : strstrIdx str old with
      | none =>
        rw [replaceN_eq_none h0 hm, naive_no_occ h0 (strstrIdx_none_no_occ hm)]
      | some i =>
        obtain ⟨hocc, hmin⟩ := strstrIdx_some_min hm
        have hle := strstrIdx_some_le hm
        have h1 : 1 ≤ old.length := by
          cases old with
          | nil => exact absurd rfl h0
          | cons a pr => simp [List.length_cons]
        rw [replaceN_eq_some h0 hm, naive_step_at h0 i str hocc hmin]
        rw [ihk (str.drop (i + old.length)) (by simp only [List.length_drop]; omega)]
  intro str
  exact main str.length str le_rfl

theorem naive_length {old new : List Nat} (h0 : old ≠ []) (hlen : new.length = old.length) :
    ∀ (str : List Nat), (naiveReplaceAll str old new).length = str.length := by
  have main : ∀ k (str : List Nat), str.length ≤ k →
      (naiveReplaceAll str old new).length = str.length := by
    intro k
    induction k with
    | zero =>
      intro str hs
      have hstr : str = [] := by
        cases str with
        | nil => rfl
        | cons c r => simp at hs
      subst hstr
      rw [naive_nil]
    | succ k ihk =>
      intro str hs
      cases str with
      | nil => rw [naive_nil]
      | cons c r =>
        have h1 : 1 ≤ old.length := by
          cases old with
          | nil => exact absurd rfl h0
          | cons a pr => simp [List.length_cons]
        cases hp : hasPref old (c :: r) with
        | true =>
          have hople := hasPref_le_length hp
          rw [naive_cons_pos new h0 hp]
          have hrec := ihk ((c :: r).drop old.length)
            (by simp only [List.length_drop, List.length_cons] at hs ⊢; omega)
          rw [List.length_append, hrec]
          simp only [List.length_drop, List.length_cons] at hople ⊢
          omega
        | false =>
          rw [naive_cons_neg new h0 hp]
          simp only [List.length_cons]
          rw [ihk r (by simp only [List.length_cons] at hs; omega)]
  intro str
  exact main str.length str le_rfl

/-- Claim C8: for every string, every non-empty `substr_old` and every
`substr_new` of the same length, `BLI_str_replaceN` returns a string whose
length equals the input length and whose content equals the naive reference
replace-all (repeatedly replace the leftmost occurrence and continue after
the replacement). -/
theorem C8_replaceN_refines_naive (str old new : List Nat)
    (h0 : old ≠ []) (hlen : new.length = old.length) :
    BLI_str_replaceN str old new = naiveReplaceAll str old new ∧
    (BLI_str_replaceN str old new).length = str.length := by
  refine ⟨replaceN_eq_naive h0 str, ?_⟩
  rw [replaceN_eq_naive h0 str]
  exact naive_length h0 hlen str

theorem C8_replaceN_refines_naive_witness :
    ([97] : List Nat) ≠ [] ∧ ([99] : List Nat).length = ([97] : List Nat).length ∧
    (BLI_str_replaceN [97, 98] [97] [99] = naiveReplaceAll [97, 98] [97] [99] ∧
     (BLI_str_replaceN [97, 98] [97] [99]).length = ([97, 98] : List Nat).length) :=
  ⟨by decide, by decide, C8_replaceN_refines_naive [97, 98] [97] [99] (by decide) (by decide)⟩

/-- `BLI_strncasecmp(s1, s2, len)`: case-insensitive comparison of at most
`len` bytes, stopping at a difference or at a NUL on both sides
(sign-canonical result). -/
def BLI_strncasecmp : List Nat → List Nat → Nat → Int
  | _, _, 0 => 0
  | s1, s2, n + 1 =>
    let c1 := tolowerB (s1.headD 0)
    let c2 := tolowerB (s2.headD 0)
    if c1 < c2 then -1
    else if c2 < c1 then 1
    else if c1 = 0 then 0
    else BLI_strncasecmp s1.tail s2.tail n

/-- The single-character search both branches of `BLI_strncasestr` perform:
index of the first byte of `s` whose lower-cased value is `c`, or `none`
when the terminator is reached. -/
def scanChar : List Nat → Nat → Option Nat
  | [], _ => none
  | a :: rest, c =>
    if tolowerB a = c then some 0 else (scanChar rest c).map (· + 1)

/-- The nested do-while loops of `BLI_strncasestr` for `len > 1`: scan for
the next position whose lower-cased byte equals `c` (the lowered first byte
of `find`); at each such candidate compare the following bytes with
`BLI_strncasecmp(s, find + 1, len - 1)` and, on failure, resume the scan
just after the candidate. -/
def strncasestrLoop : List Nat → List Nat → Nat → Nat → Option Nat
  | [], _, _, _ => none
  | a :: rest, f1, c, m =>
    if tolowerB a = c then
      if BLI_strncasecmp rest f1 m = 0 then some 0
      else (strncasestrLoop rest f1 c m).map (· + 1)
    else (strncasestrLoop rest f1 c m).map (· + 1)

/-- `BLI_strncasestr(s, find, len)` as the index of the match it returns:
an empty `find` matches immediately; otherwise the first byte is searched
for and, when `len > 1`, the next `len - 1` bytes are compared too. -/
def BLI_strncasestr (s f : List Nat) (len : Nat) : Option Nat :=
  match f with
  | [] => some 0
  | c0 :: f1 =>
    if len > 1 then strncasestrLoop s f1 (tolowerB c0) (len - 1)
    else scanChar s (tolowerB c0)

theorem tolowerB_ne_zero {c : Nat} (h : c ≠ 0) : tolowerB c ≠ 0 := by
  unfold tolowerB
  split <;> omega

theorem tolowerB_zero : tolowerB 0 = 0 := by decide

theorem strncasecmp_eq_zero_iff :
    ∀ (m : Nat) (s f : List Nat), (∀ x ∈ f.take m, x ≠ 0) → m ≤ f.length →
      (BLI_strncasecmp s f m = 0 ↔
        m ≤ s.length ∧ (s.take m).map tolowerB = (f.take m).map tolowerB) := by
  intro m
  induction m with
  | zero => intro s f _ _; simp [BLI_strncasecmp]
  | succ m ih =>
    intro s f hz hm
    cases f with
    | nil => simp at hm
    | cons b f1 =>
      have hb0 : b ≠ 0 := hz b (by simp [List.take_succ_cons])
      have hc2 : tolowerB b ≠ 0 := tolowerB_ne_zero hb0
      cases s with
      | nil =>
        constructor
        · intro h
          exfalso
          simp only [BLI_strncasecmp, List.headD_nil, List.headD_cons, tolowerB_zero] at h
          rw [if_pos (by have := tolowerB_ne_zero hb0; omega)] at h
          cases h
        · intro ⟨h1, _⟩
          simp at h1
      | cons a s1 =>
        simp only [BLI_strncasecmp, List.headD_cons, List.tail_cons]
        rcases Nat.lt_trichotomy (tolowerB a) (tolowerB b) with hlt | heq | hgt
        · rw [if_pos hlt]
          constructor
          · intro h; cases h
          · intro ⟨_, h2⟩
            simp only [List.take_succ_cons, List.map_cons, List.cons.injEq] at h2
            omega
        · rw [if_neg (by omega), if_neg (by omega), if_neg (by rw [heq]; exact hc2)]
          rw [ih s1 f1 (fun x hx => hz x (by simp [List.take_succ_cons, hx]))
            (by simpa using hm)]
          simp only [List.take_succ_cons, List.map_cons, List.cons.injEq, List.length_cons]
          constructor
          · intro ⟨h1, h2⟩
            exact ⟨by omega, heq, h2⟩
          · intro ⟨h1, _, h2⟩
            exact ⟨by omega, h2⟩
        · rw [if_neg (by omega), if_pos hgt]
          constructor
          · intro h; cases h
          · intro ⟨_, h2⟩
            simp only [List.take_succ_cons, List.map_cons, List.cons.injEq] at h2
            omega

/-- Spec-side predicate: `pat` occurs case-insensitively at the head of
`s` (complete occurrence within the string). -/
def occHeadB (s pat : List Nat) : Bool :=
  decide (pat.length ≤ s.length) &&
    decide ((s.take pat.length).map tolowerB = pat.map tolowerB)

/-- Spec-side function: index of the first case-insensitive occurrence of
`pat` in `s`. -/
def firstOccIdx (s pat : List Nat) : Option Nat :=
  if occHeadB s pat then some 0
  else
    match s with
    | [] => none
    | _ :: r => (firstOccIdx r pat).map (· + 1)

theorem firstOccIdx_nil (pat : List Nat) :
    firstOccIdx [] pat = if occHeadB [] pat = true then some 0 else none := rfl

theorem firstOccIdx_cons (a : Nat) (r pat : List Nat) :
    firstOccIdx (a :: r) pat =
      if occHeadB (a :: r) pat = true then some 0
      else (firstOccIdx r pat).map (· + 1) := rfl

theorem occHeadB_single (a c0 : Nat) (r : List Nat) :
    occHeadB (a :: r) [c0] = decide (tolowerB a = tolowerB c0) := by
  simp [occHeadB]

theorem scanChar_eq_firstOcc (c0 : Nat) :
    ∀ s : List Nat, scanChar s (tolowerB c0) = firstOccIdx s [c0] := by
  intro s
  induction s with
  | nil => simp [scanChar, firstOccIdx_nil, occHeadB]
  | cons a r ih =>
    rw [firstOccIdx_cons, occHeadB_single]
    by_cases h : tolowerB a = tolowerB c0
    · simp [scanChar, h]
    · simp [scanChar, h, ih]

theorem strncasestrLoop_eq_firstOcc (c0 : Nat) (nd1 : List Nat) (m : Nat)
    (hz : ∀ x ∈ nd1.take m, x ≠ 0) (hm : m ≤ nd1.length) :
    ∀ s : List Nat,
      strncasestrLoop s nd1 (tolowerB c0) m = firstOccIdx s (c0 :: nd1.take m) := by
  have hlenpat : (nd1.take m).length = m := by
    simp only [List.length_take]
    omega
  intro s
  induction s with
  | nil =>
    rw [firstOccIdx_nil, if_neg (by simp [occHeadB, hlenpat])]
    rfl
  | cons a r ih =>
    have hkey : (occHeadB (a :: r) (c0 :: nd1.take m) = true) ↔
        (tolowerB a = tolowerB c0 ∧ BLI_strncasecmp r nd1 m = 0) := by
      rw [show occHeadB (a :: r) (c0 :: nd1.take m)
          = (decide (m + 1 ≤ r.length + 1) &&
             decide (tolowerB a :: (r.take m).map tolowerB
               = tolowerB c0 :: (nd1.take m).map tolowerB)) by
        simp [occHeadB, hlenpat, List.take_succ_cons]]
      rw [strncasecmp_eq_zero_iff m r nd1 hz hm]
      simp only [Bool.and_eq_true, decide_eq_true_eq, List.cons.injEq]
      constructor
      · intro ⟨h1, h2, h3⟩
        exact ⟨h2, by omega, h3⟩
      · intro ⟨h1, h2, h3⟩
        exact ⟨by omega, h1, h3⟩
    by_cases h1 : tolowerB a = tolowerB c0
    · by_cases h2 : BLI_strncasecmp r nd1 m = 0
      · rw [firstOccIdx_cons, if_pos (hkey.mpr ⟨h1, h2⟩)]
        simp [strncasestrLoop, h1, h2]
      · have hO : ¬(occHeadB (a :: r) (c0 :: nd1.take m) = true) := by
          intro hval
          exact absurd (hkey.mp hval).2 h2
        rw [firstOccIdx_cons, if_neg hO]
        simp [strncasestrLoop, h1, h2, ih]
    · have hO : ¬(occHeadB (a :: r) (c0 :: nd1.take m) = true) := by
        intro hval
        exact absurd (hkey.mp hval).1 h1
      rw [firstOccIdx_cons, if_neg hO]
      simp [strncasestrLoop, h1, ih]

theorem strncasestr_eq_firstOcc {ndl : List Nat} {n : Nat}
    (hn1 : 1 ≤ n) (hn2 : n ≤ ndl.length) (hz : ∀ x ∈ ndl, x ≠ 0) (s : List Nat) :
    BLI_strncasestr s ndl n = firstOccIdx s (ndl.take n) := by
  cases ndl with
  | nil => simp at hn2; omega
  | cons c0 nd1 =>
    simp only [BLI_strncasestr]
    rcases Nat.lt_or_ge 1 n with hgt | hle
    · rw [if_pos hgt]
      have htk : (c0 :: nd1).take n = c0 :: nd1.take (n - 1) := by
        cases n with
        | zero => omega
        | succ k => simp [List.take_succ_cons]
      rw [htk]
      exact strncasestrLoop_eq_firstOcc c0 nd1 (n - 1)
        (fun x hx => hz x (List.mem_cons_of_mem _ (List.take_subset _ _ hx)))
        (by simp only [List.length_cons] at hn2; omega) s
    · have hn : n = 1 := by omega
      subst hn
      rw [if_neg (by omega)]
      rw [show (c0 :: nd1).take 1 = [c0] by simp]
      exact scanChar_eq_firstOcc c0 s

theorem firstOcc_none_no_occ {pat : List Nat} :
    ∀ {s : List Nat}, firstOccIdx s pat = none → ∀ j, occHeadB (s.drop j) pat = false := by
  intro s
  induction s with
  | nil =>
    intro h j
    rw [firstOccIdx_nil] at h
    by_cases hp : occHeadB [] pat = true
    · rw [if_pos hp] at h; cases h
    · simp only [List.drop_nil]
      simpa using hp
  | cons b r ih =>
    intro h j
    rw [firstOccIdx_cons] at h
    by_cases hp : occHeadB (b :: r) pat = true
    · rw [if_pos hp] at h; cases h
    · rw [if_neg hp] at h
      cases hm : firstOccIdx r pat with
      | some k => rw [hm] at h; cases h
      | none =>
        cases j with
        | zero =>
          simp only [List.drop_zero]
          simpa using hp
        | succ j => simpa using ih hm j

theorem firstOcc_some_min {pat : List Nat} :
    ∀ {s : List Nat} {i : Nat}, firstOccIdx s pat = some i →
      occHeadB (s.drop i) pat = true ∧ ∀ j < i, occHeadB (s.drop j) pat = false := by
  intro s
  induction s with
  | nil =>
    intro i h
    rw [firstOccIdx_nil] at h
    by_cases hp : occHeadB [] pat = true
    · rw [if_pos hp] at h
      injection h with h'
      subst h'
      exact ⟨by simpa using hp, by omega⟩
    · rw [if_neg hp] at h
      cases h
  | cons b r ih =>
    intro i h
    rw [firstOccIdx_cons] at h
    by_cases hp : occHeadB (b :: r) pat = true
    · rw [if_pos hp] at h
      injection h with h'
      subst h'
      exact ⟨by simpa using hp, by omega⟩
    · rw [if_neg hp] at h
      cases hm : firstOccIdx r pat with
      | none => rw [hm] at h; cases h
      | some k =>
        rw [hm] at h
        have h' : k + 1 = i := by simpa using h
        subst h'
        obtain ⟨hocc, hmin⟩ := ih hm
        refine ⟨by simpa using hocc, ?_⟩
        intro j hj
        cases j with
        | zero =>
          simp only [List.drop_zero]
          simpa using hp
        | succ j =>
          simp only [List.drop_succ_cons]
          exact hmin j (by omega)

theorem occHead_bound {s pat : List Nat} {i : Nat} (hp : pat ≠ [])
    (h : occHeadB (s.drop i) pat = true) : i + pat.length ≤ s.length := by
  have hl : 1 ≤ pat.length := by
    cases pat with
    | nil => exact absurd rfl hp
    | cons a pr => simp [List.length_cons]
  simp only [occHeadB, Bool.and_eq_true, decide_eq_true_eq] at h
  obtain ⟨h1, _⟩ := h
  simp only [List.length_drop] at h1
  omega

theorem scanChar_some_lt :
    ∀ {s : List Nat} {c i : Nat}, scanChar s c = some i → i < s.length := by
  intro s
  induction s with
  | nil => intro c i h; cases h
  | cons a r ih =>
    intro c i h
    simp only [scanChar] at h
    by_cases ht : tolowerB a = c
    · rw [if_pos ht] at h
      injection h with h'
      subst h'
      simp
    · rw [if_neg ht] at h
      cases hm : scanChar r c with
      | none => rw [hm] at h; cases h
      | some j =>
        rw [hm] at h
        have h' : j + 1 = i := by simpa using h
        subst h'
        have := ih hm
        simp only [List.length_cons]
        omega

theorem strncasestrLoop_some_lt :
    ∀ {s f1 : List Nat} {c m i : Nat}, strncasestrLoop s f1 c m = some i → i < s.length := by
  intro s
  induction s with
  | nil => intro f1 c m i h; cases h
  | cons a r ih =>
    intro f1 c m i h
    simp only [strncasestrLoop] at h
    by_cases ht : tolowerB a = c
    · rw [if_pos ht] at h
      by_cases hc : BLI_strncasecmp r f1 m = 0
      · rw [if_pos hc] at h
        injection h with h'
        subst h'
        simp
      · rw [if_neg hc] at h
        cases hm : strncasestrLoop r f1 c m with
        | none => rw [hm] at h; cases h
        | some j =>
          rw [hm] at h
          have h' : j + 1 = i := by simpa using h
          subst h'
          have := ih hm
          simp only [List.length_cons]
          omega
    · rw [if_neg ht] at h
      cases hm : strncasestrLoop r f1 c m with
      | none => rw [hm] at h; cases h
      | some j =>
        rw [hm] at h
        have h' : j + 1 = i := by simpa using h
        subst h'
        have := ih hm
        simp only [List.length_cons]
        omega

theorem strncasestr_some_bound {s f : List Nat} {n i : Nat}
    (h : BLI_strncasestr s f n = some i) : i = 0 ∨ i < s.length := by
  cases f with
  | nil =>
    simp only [BLI_strncasestr] at h
    injection h with h'
    exact Or.inl h'.symm
  | cons c0 f1 =>
    simp only [BLI_strncasestr] at h
    by_cases hn : n > 1
    · rw [if_pos hn] at h
      exact Or.inr (strncasestrLoop_some_lt h)
    · rw [if_neg hn] at h
      exact Or.inr (scanChar_some_lt h)

/-- `BLI_string_has_word_prefix(haystack, needle, needle_len)`: find a
case-insensitive occurrence with `BLI_strncasestr`; accept it when it is at
the start of the (current) haystack or preceded by a space or punctuation
byte, otherwise recurse on the haystack starting one byte after the
match. -/
def BLI_string_has_word_prefix (hay ndl : List Nat) (n : Nat) : Bool :=
  match _hm : BLI_strncasestr hay ndl n with
  | none => false
  | some i =>
    if _hb : i = 0 ∨ hay.getD (i - 1) 0 = 32 ∨ ispunctB (hay.getD (i - 1) 0) = true then true
    else BLI_string_has_word_prefix (hay.drop (i + 1)) ndl n
termination_by hay.length
decreasing_by
  rcases strncasestr_some_bound _hm with h0 | hlt
  · exact absurd h0 (fun h => _hb (Or.inl h))
  · simp only [List.length_drop]
    omega

/-- Spec-side predicate: a case-insensitive occurrence of `pat` at index
`i` of `hay` (as the claim words it: the first `n` bytes of the needle
occur there). -/
def occAtB (hay pat : List Nat) (i : Nat) : Bool :=
  decide (i + pat.length ≤ hay.length) &&
    decide (((hay.drop i).take pat.length).map tolowerB = pat.map tolowerB)

/-- Spec-side predicate: index `i` of `hay` is a word boundary in the
claim's sense — start of string, or preceded by a space or punctuation
byte. -/
def boundaryAtB (hay : List Nat) (i : Nat) : Bool :=
  decide (i = 0) || decide (hay.getD (i - 1) 0 = 32) || ispunctB (hay.getD (i - 1) 0)

/-- The claim's characterization of `BLI_string_has_word_prefix`: some
case-insensitive occurrence of the first `n` bytes of the needle begins at
a word boundary. -/
def specWordOccurs (hay ndl : List Nat) (n : Nat) : Bool :=
  (List.range (hay.length + 1)).any fun i =>
    occAtB hay (ndl.take n) i && boundaryAtB hay i

/-- The amended characterization: additionally, a position immediately
following another occurrence counts as a boundary, because the recursion
restarts the haystack at `match + 1` and then accepts `match == haystack`
at the restarted start. -/
def amendedWordOccurs (hay ndl : List Nat) (n : Nat) : Bool :=
  (List.range (hay.length + 1)).any fun i =>
    occAtB hay (ndl.take n) i &&
      (boundaryAtB hay i || (decide (1 ≤ i) && occAtB hay (ndl.take n) (i - 1)))

theorem occAtB_eq_occHead {hay pat : List Nat} (hp : pat ≠ []) (j : Nat) :
    occAtB hay pat j = occHeadB (hay.drop j) pat := by
  have hl : 1 ≤ pat.length := by
    cases pat with
    | nil => exact absurd rfl hp
    | cons a pr => simp [List.length_cons]
  simp only [occAtB, occHeadB, List.length_drop]
  by_cases h1 : j + pat.length ≤ hay.length
  · have h2 : pat.length ≤ hay.length - j := by omega
    simp [h1, h2]
  · have h2 : ¬(pat.length ≤ hay.length - j) := by omega
    simp [h1, h2]

theorem getD_drop (l : List Nat) (m k : Nat) :
    (l.drop m).getD k 0 = l.getD (m + k) 0 := by
  induction l generalizing m with
  | nil => simp
  | cons a r ih =>
    cases m with
    | zero => simp
    | succ m =>
      rw [List.drop_succ_cons, ih m, show m + 1 + k = (m + k) + 1 by omega,
        List.getD_cons_succ]

theorem boundaryAtB_drop {hay : List Nat} {i j : Nat} (hj : 1 ≤ j) :
    boundaryAtB (hay.drop (i + 1)) j =
      (decide (hay.getD (i + j) 0 = 32) || ispunctB (hay.getD (i + j) 0)) := by
  have h0 : decide (j = 0) = false := by simp; omega
  simp only [boundaryAtB, getD_drop, h0, Bool.false_or]
  rw [show i + 1 + (j - 1) = i + j by omega]

theorem occAtB_drop {hay pat : List Nat} (hp : pat ≠ []) (i j : Nat) :
    occAtB (hay.drop (i + 1)) pat j = occAtB hay pat (i + 1 + j) := by
  rw [occAtB_eq_occHead hp j, occAtB_eq_occHead hp (i + 1 + j)]
  congr 1
  rw [List.drop_drop]

theorem occAtB_le {hay pat : List Nat} {j : Nat} (h : occAtB hay pat j = true) :
    j + pat.length ≤ hay.length := by
  simp only [occAtB, Bool.and_eq_true, decide_eq_true_eq] at h
  exact h.1

theorem amended_true_iff (hay ndl : List Nat) (n : Nat) :
    amendedWordOccurs hay ndl n = true ↔
      ∃ j, occAtB hay (ndl.take n) j = true ∧
        (boundaryAtB hay j = true ∨ (1 ≤ j ∧ occAtB hay (ndl.take n) (j - 1) = true)) := by
  unfold amendedWordOccurs
  rw [List.any_eq_true]
  constructor
  · rintro ⟨j, _, hp⟩
    simp only [Bool.and_eq_true, Bool.or_eq_true, decide_eq_true_eq] at hp
    exact ⟨j, hp.1, by tauto⟩
  · rintro ⟨j, hocc, hdisj⟩
    refine ⟨j, ?_, ?_⟩
    · rw [List.mem_range]
      have := occAtB_le hocc
      omega
    · simp only [Bool.and_eq_true, Bool.or_eq_true, decide_eq_true_eq]
      exact ⟨hocc, by tauto⟩

theorem boundaryAtB_true_iff (hay : List Nat) (i : Nat) :
    boundaryAtB hay i = true ↔
      (i = 0 ∨ hay.getD (i - 1) 0 = 32 ∨ ispunctB (hay.getD (i - 1) 0) = true) := by
  simp [boundaryAtB, or_assoc]

theorem amended_shift {hay ndl : List Nat} {n i : Nat}
    (hp : ndl.take n ≠ [])
    (hocc : occAtB hay (ndl.take n) i = true)
    (hmin : ∀ j < i, occAtB hay (ndl.take n) j = false)
    (hnb : boundaryAtB hay i = false) :
    amendedWordOccurs hay ndl n = amendedWordOccurs (hay.drop (i + 1)) ndl n := by
  have main : amendedWordOccurs hay ndl n = true ↔
      amendedWordOccurs (hay.drop (i + 1)) ndl n = true := by
    rw [amended_true_iff, amended_true_iff]
    constructor
    · rintro ⟨j, hoccj, hdisj⟩
      have hjgt : i < j := by
        rcases Nat.lt_trichotomy j i with h | h | h
        · exact absurd hoccj (by simp [hmin j h])
        · subst h
          rcases hdisj with hb | ⟨h1, hocc2⟩
          · rw [hnb] at hb; cases hb
          · exact absurd hocc2 (by simp [hmin (j - 1) (by omega)])
        · exact h
      refine ⟨j - (i + 1), ?_, ?_⟩
      · rw [occAtB_drop hp, show i + 1 + (j - (i + 1)) = j by omega]
        exact hoccj
      · by_cases hji : j = i + 1
        · left
          subst hji
          simp [boundaryAtB]
        · have hj2 : i + 2 ≤ j := by omega
          rcases hdisj with hb | ⟨h1, hocc2⟩
          · left
            rw [boundaryAtB_drop (by omega : 1 ≤ j - (i + 1))]
            rcases (boundaryAtB_true_iff hay j).mp hb with h0 | h32 | hpn
            · omega
            · rw [show i + (j - (i + 1)) = j - 1 by omega]
              simp only [Bool.or_eq_true, decide_eq_true_eq]
              exact Or.inl h32
            · rw [show i + (j - (i + 1)) = j - 1 by omega]
              simp only [Bool.or_eq_true, decide_eq_true_eq]
              exact Or.inr hpn
          · right
            refine ⟨by omega, ?_⟩
            rw [show j - (i + 1) - 1 = j - 1 - (i + 1) by omega, occAtB_drop hp,
              show i + 1 + (j - 1 - (i + 1)) = j - 1 by omega]
            exact hocc2
    · rintro ⟨j', hoccj', hdisj'⟩
      refine ⟨i + 1 + j', ?_, ?_⟩
      · rw [← occAtB_drop hp]
        exact hoccj'
      · by_cases hj0 : j' = 0
        · subst hj0
          right
          refine ⟨by omega, ?_⟩
          rw [show i + 1 + 0 - 1 = i by omega]
          exact hocc
        · rcases hdisj' with hb | ⟨h1, hocc2⟩
          · left
            rw [boundaryAtB_drop (by omega : 1 ≤ j')] at hb
            simp only [Bool.or_eq_true, decide_eq_true_eq] at hb
            rw [boundaryAtB_true_iff]
            rw [show i + 1 + j' - 1 = i + j' by omega]
            tauto
          · right
            refine ⟨by omega, ?_⟩
            rw [show i + 1 + j' - 1 = i + 1 + (j' - 1) by omega, ← occAtB_drop hp]
            exact hocc2
  cases h2 : amendedWordOccurs (hay.drop (i + 1)) ndl n with
  | true => exact main.mpr h2
  | false =>
    cases h1 : amendedWordOccurs hay ndl n with
    | false => rfl
    | true =>
      exact absurd (main.mp h1) (by simp [h2])

theorem hwp_eq_none {hay ndl : List Nat} {n : Nat}
    (hm : BLI_strncasestr hay ndl n = none) :
    BLI_string_has_word_prefix hay ndl n = false := by
  conv_lhs => rw [ BLI_string_has_word_prefix.eq_def]
  split
  · rfl
  · rename_i i heq
    rw [hm] at heq
    cases heq

theorem hwp_eq_some_true {hay ndl : List Nat} {n i : Nat}
    (hm : BLI_strncasestr hay ndl n = some i)
    (hc : i = 0 ∨ hay.getD (i - 1) 0 = 32 ∨ ispunctB (hay.getD (i - 1) 0) = true) :
    BLI_string_has_word_prefix hay ndl n = true := by
  conv_lhs => rw [ BLI_string_has_word_prefix.eq_def]
  split
  · rename_i heq
    rw [hm] at heq
    cases heq
  · rename_i j heq
    rw [hm] at heq
    injection heq with h'
    subst h'
    rw [dif_pos hc]

theorem hwp_eq_some_rec {hay ndl : List Nat} {n i : Nat}
    (hm : BLI_strncasestr hay ndl n = some i)
    (hc : ¬(i = 0 ∨ hay.getD (i - 1) 0 = 32 ∨ ispunctB (hay.getD (i - 1) 0) = true)) :
    BLI_string_has_word_prefix hay ndl n
      = BLI_string_has_word_prefix (hay.drop (i + 1)) ndl n := by
  conv_lhs => rw [ BLI_string_has_word_prefix.eq_def]
  split
  · rename_i heq
    rw [hm] at heq
    cases heq
  · rename_i j heq
    rw [hm] at heq
    injection heq with h'
    subst h'
    rw [dif_neg hc]

theorem hwp_eq_amended {ndl : List Nat} {n : Nat}
    (hn1 : 1 ≤ n) (hn2 : n ≤ ndl.length) (hz : ∀ x ∈ ndl, x ≠ 0) :
    ∀ hay : List Nat,
      BLI_string_has_word_prefix hay ndl n = amendedWordOccurs hay ndl n := by
  have hlenpat : (ndl.take n).length = n := by
    simp only [List.length_take]
    omega
  have hp : ndl.take n ≠ [] := by
    intro hnil
    rw [hnil] at hlenpat
    simp at hlenpat
    omega
  have main : ∀ k (hay : List Nat), hay.length ≤ k →
      BLI_string_has_word_prefix hay ndl n = amendedWordOccurs hay ndl n := by
    intro k
    induction k with
    | zero =>
      intro hay hk
      have hE := strncasestr_eq_firstOcc hn1 hn2 hz hay
      cases hfo : firstOccIdx hay (ndl.take n) with
      | none =>
        rw [hwp_eq_none (by rw [hE, hfo])]
        cases hA : amendedWordOccurs hay ndl n with
        | false => rfl
        | true =>
          exfalso
          obtain ⟨j, hocc, _⟩ := (amended_true_iff hay ndl n).mp hA
          rw [occAtB_eq_occHead hp] at hocc
          rw [firstOcc_none_no_occ hfo j] at hocc
          cases hocc
      | some i =>
        exfalso
        obtain ⟨hocc, _⟩ := firstOcc_some_min hfo
        have := occHead_bound hp hocc
        omega
    | succ k ih =>
      intro hay hk
      have hE := strncasestr_eq_firstOcc hn1 hn2 hz hay
      cases hfo : firstOccIdx hay (ndl.take n) with
      | none =>
        rw [hwp_eq_none (by rw [hE, hfo])]
        cases hA : amendedWordOccurs hay ndl n with
        | false => rfl
        | true =>
          exfalso
          obtain ⟨j, hocc, _⟩ := (amended_true_iff hay ndl n).mp hA
          rw [occAtB_eq_occHead hp] at hocc
          rw [firstOcc_none_no_occ hfo j] at hocc
          cases hocc
      | some i =>
        obtain ⟨hocc, hmin⟩ := firstOcc_some_min hfo
        have hoccA : occAtB hay (ndl.take n) i = true := by
          rw [occAtB_eq_occHead hp]
          exact hocc
        have hminA : ∀ j < i, occAtB hay (ndl.take n) j = false := by
          intro j hj
          rw [occAtB_eq_occHead hp]
          exact hmin j hj
        have hbound := occHead_bound hp hocc
        by_cases hcond : i = 0 ∨ hay.getD (i - 1) 0 = 32 ∨ ispunctB (hay.getD (i - 1) 0) = true
        · rw [hwp_eq_some_true (by rw [hE, hfo]) hcond]
          symm
          rw [amended_true_iff]
          exact ⟨i, hoccA, Or.inl ((boundaryAtB_true_iff hay i).mpr hcond)⟩
        · rw [hwp_eq_some_rec (by rw [hE, hfo]) hcond]
          have hnb : boundaryAtB hay i = false := by
            cases hB : boundaryAtB hay i with
            | false => rfl
            | true => exact absurd ((boundaryAtB_true_iff hay i).mp hB) hcond
          have hlenrec : (hay.drop (i + 1)).length ≤ k := by
            simp only [List.length_drop]
            omega
          rw [ih (hay.drop (i + 1)) hlenrec, ← amended_shift hp hoccA hminA hnb]
  intro hay
  exact main hay.length hay le_rfl

/-- Claim C7 counterexample: on haystack `"xaaa"`, needle `"aa"`, `n = 2`
the function returns true although no occurrence of `"aa"` begins at a word
boundary in the claim's sense (positions 1 and 2 are preceded by `x` and
`a`): after rejecting the occurrence at index 1 the recursion restarts the
haystack at index 2, and the occurrence there is accepted by the
`match == haystack` test against the restarted haystack. -/
theorem C7_word_prefix_counterexample :
    BLI_string_has_word_prefix [120, 97, 97, 97] [97, 97] 2 = true ∧
    specWordOccurs [120, 97, 97, 97] [97, 97] 2 = false := by
  constructor
  · rw [hwp_eq_amended (by decide) (by decide) (by decide) [120, 97, 97, 97]]
    decide
  · decide

/-- Claim C7 (amended): for every haystack, needle without NUL bytes and
length `n` with `1 ≤ n ≤ strlen(needle)`, `BLI_string_has_word_prefix`
returns true exactly when some case-insensitive occurrence of the first `n`
bytes of the needle begins at a word boundary — where, due to the
restart-at-`match + 1` recursion, a boundary is the start of the string, a
preceding space or punctuation byte, or a position immediately following
another occurrence; successive occurrences are tried after each failed
boundary check.  In particular the claim's examples hold:
`BLI_string_has_word_prefix("the quick, fox", "fox", 3)` is true and
`BLI_string_has_word_prefix("thefox", "fox", 3)` is false. -/
theorem C7_word_prefix_amended :
    (∀ (hay ndl : List Nat) (n : Nat), 1 ≤ n → n ≤ ndl.length → (∀ x ∈ ndl, x ≠ 0) →
      BLI_string_has_word_prefix hay ndl n = amendedWordOccurs hay ndl n) ∧
    BLI_string_has_word_prefix
      [116, 104, 101, 32, 113, 117, 105, 99, 107, 44, 32, 102, 111, 120]
      [102, 111, 120] 3 = true ∧
    BLI_string_has_word_prefix [116, 104, 101, 102, 111, 120] [102, 111, 120] 3 = false := by
  have hmain : ∀ (hay ndl : List Nat) (n : Nat), 1 ≤ n → n ≤ ndl.length →
      (∀ x ∈ ndl, x ≠ 0) →
      BLI_string_has_word_prefix hay ndl n = amendedWordOccurs hay ndl n :=
    fun hay ndl n h1 h2 h3 => hwp_eq_amended h1 h2 h3 hay
  refine ⟨hmain, ?_, ?_⟩
  · rw [hmain _ _ _ (by decide) (by decide) (by decide)]
    decide
  · rw [hmain _ _ _ (by decide) (by decide) (by decide)]
    decide

theorem C7_word_prefix_amended_witness :
    1 ≤ 3 ∧ 3 ≤ ([102, 111, 120] : List Nat).length ∧
    (∀ x ∈ ([102, 111, 120] : List Nat), x ≠ 0) ∧
    BLI_string_has_word_prefix [97, 32, 102, 111, 120] [102, 111, 120] 3
      = amendedWordOccurs [97, 32, 102, 111, 120] [102, 111, 120] 3 :=
  ⟨by decide, by decide, by decide,
    C7_word_prefix_amended.1 [97, 32, 102, 111, 120] [102, 111, 120] 3
      (by decide) (by decide) (by decide)⟩
